import Mathlib

/-!
Verification of the MongoDB engine contrib layer
(`django_mongodb_engine/contrib/__init__.py`).

Python strings are embedded as `List Char`; the Python string methods the
source uses (`str.replace`, `str.endswith`, `str.split(sep)[0]`, and
`re.sub(sep + op + '$', ...)` on a metacharacter-free pattern) are defined
below as executable Lean functions with the same semantics.  Stateful
behaviour (queryset cloning, dynamic field registration, driver update and
drop calls, generator cleanup) is embedded as explicit state passing.
-/

namespace MongoContrib

/-- A Python string, embedded as its list of characters. -/
abbrev Str := List Char

/-- `django.db.models.constants.LOOKUP_SEP`: the double underscore. -/
def LOOKUP_SEP : Str := ['_', '_']

/-- The internal type names the source treats as document-like
(`MONGO_DOT_FIELDS`, line 15 of the source). -/
def MONGO_DOT_FIELDS : List String :=
  ["DictField", "ListField", "SetField", "EmbeddedModelField"]

/-- Modelled from the spec: `ALL_OPERATORS` is built from `OPERATORS_MAP`
and `NEGATED_OPERATORS_MAP` of `django_mongodb_engine.compiler`, a module of
this repository that is not part of the provided sources.  The spec
describes it as "the full set of forward and negated operators (equality,
comparison, membership, negated-comparison, etc.)".  We model it as the
operator-suffix names for equality, the four comparisons, membership,
range, year extraction and null tests. -/
def ALL_OPERATORS : List Str :=
  ["exact".toList, "gt".toList, "gte".toList, "lt".toList, "lte".toList,
   "in".toList, "range".toList, "year".toList, "isnull".toList]

/-- Fuel-indexed worker for `replaceList`; the fuel makes the recursion
structural so that concrete applications reduce inside the kernel. -/
def replaceListAux (pat repl : Str) : Nat → Str → Str
  | _, [] => []
  | 0, s => s
  | fuel + 1, c :: rest =>
    if pat.isPrefixOf (c :: rest) then
      repl ++ replaceListAux pat repl fuel (rest.drop (pat.length - 1))
    else
      c :: replaceListAux pat repl fuel rest

/-- Python `s.replace(pat, repl)`: replace every non-overlapping occurrence
of `pat` in `s` by `repl`, scanning left to right. -/
def replaceList (pat repl s : Str) : Str :=
  replaceListAux pat repl s.length s

/-- Python `re.sub(pat + '$', repl, k)` for a pattern without regex
metacharacters: if `k` ends with `pat`, replace that final occurrence by
`repl`, otherwise leave `k` unchanged. -/
def subSuffix (pat repl k : Str) : Str :=
  if pat.isSuffixOf k then k.take (k.length - pat.length) ++ repl else k

/-- Python `s.split(sep)[0]`: the characters of `s` before the first
occurrence of `sep` (all of `s` when `sep` does not occur). -/
def firstSegment (sep : Str) : Str → Str
  | [] => []
  | c :: rest =>
    if sep.isPrefixOf (c :: rest) ∧ sep ≠ [] then []
    else c :: firstSegment sep rest

/-- Python `pat in s` on strings: substring containment. -/
def containsSub (pat : Str) : Str → Bool
  | [] => pat.isEmpty
  | c :: rest => pat.isPrefixOf (c :: rest) || containsSub pat rest

/-- A field declared on the model: its name and the result of
`field.get_internal_type()`.  Dynamically registered fields get the
internal type `"AbstractIterableField"`. -/
structure FieldDecl where
  name : Str
  internalType : String
deriving DecidableEq, Repr

/-- The model metadata consulted by `_filter_or_exclude`
(`self.model._meta`).  `get_field_by_name` is embedded by filtering the
declaration list by name. -/
structure ModelMeta where
  fields : List FieldDecl
deriving DecidableEq, Repr

/-- `self.model._meta.get_all_field_names()` (source line 101). -/
def allFieldNames (m : ModelMeta) : List Str :=
  m.fields.map (·.name)

/-- `base_field_names` (source lines 102-107): the names of declared
fields whose name has no literal dot and whose internal type is one of
`MONGO_DOT_FIELDS`. -/
def baseFieldNames (m : ModelMeta) : List Str :=
  (m.fields.filter
    (fun fd => ¬ '.' ∈ fd.name ∧ fd.internalType ∈ MONGO_DOT_FIELDS)).map (·.name)

/-- The operator-suffix scan of `_filter_or_exclude` (source lines
112-115): find the first entry of `ALL_OPERATORS` that is a suffix of the
key (`k.endswith(s)`), and swap the separator immediately before it for a
`#` placeholder (`re.sub(LOOKUP_SEP + s + '$', '#' + s, k)`); the `break`
after the first match is the `find?`. -/
def opSwap (k : Str) : Str :=
  match ALL_OPERATORS.find? (fun s => s.isSuffixOf k) with
  | some s => subSuffix (LOOKUP_SEP ++ s) ('#' :: s) k
  | none => k

/-- The per-key rewriting of `_filter_or_exclude` (source lines 110-117):
if the key contains the lookup separator and its first segment is a
document-like field, run the operator-suffix swap, replace all remaining
separators by literal dots, and restore the placeholder to a separator. -/
def rewriteKey (baseNames : List Str) (k : Str) : Str :=
  if containsSub LOOKUP_SEP k ∧ firstSegment LOOKUP_SEP k ∈ baseNames then
    replaceList ['#'] LOOKUP_SEP (replaceList LOOKUP_SEP ['.'] (opSwap k))
  else k

/-- The kwargs transformation of source lines 109-117: every binding
`(k, v)` is re-keyed to `(rewriteKey k, v)` (the Python loop deletes the
old key and re-inserts the rewritten key bound to the same value). -/
def rewriteKwargs (V : Type) (baseNames : List Str) (kwargs : List (Str × V)) :
    List (Str × V) :=
  kwargs.map (fun kv => (rewriteKey baseNames kv.1, kv.2))

/-- The dotted field names dynamically registered by source lines 118-121:
for every kwarg, after its rewrite, take the first segment `f` of the
(possibly rewritten) key; if `f` contains a literal dot and is not among
the model's known field names, an `AbstractIterableField` is registered
under the name `f` via `contribute_to_class`. -/
def registrations (V : Type) (m : ModelMeta) (kwargs : List (Str × V)) :
    List Str :=
  kwargs.filterMap (fun kv =>
    let k := rewriteKey (baseFieldNames m) kv.1
    let f := firstSegment LOOKUP_SEP k
    if '.' ∈ f ∧ ¬ f ∈ allFieldNames m then some f else none)

/-- One predicate added to a query by `query.add_q`: the `Q` object built
from the (processed) arguments, possibly negated (`~Q(...)`). -/
structure QNode (P V : Type) where
  negated : Bool
  args : List P
  kwargs : List (Str × V)
deriving DecidableEq, Repr

/-- The queryset state `_filter_or_exclude` touches: the result of Django's
`query.can_filter()` (false once a result-limiting slice has been taken;
the ORM is an external collaborator, modelled as a boolean), and the query
structure as the list of predicates added so far. -/
structure QuerySetState (P V : Type) where
  canFilter : Bool
  predicates : List (QNode P V)
deriving DecidableEq, Repr

/-- `MongoDBQuerySet._filter_or_exclude` (source lines 94-127), embedded as
a function from the receiver's state, the shared model metadata and the
call arguments to either an `AssertionError` or the triple of the
receiver's final state, the returned clone and the final model metadata.
The receiver's query is untouched: the predicate is added to the clone's
query, while dynamic field registration mutates the shared model. -/
def filterOrExclude (P V : Type) (negate : Bool) (qs : QuerySetState P V)
    (model : ModelMeta) (args : List P) (kwargs : List (Str × V)) :
    Except String (QuerySetState P V × QuerySetState P V × ModelMeta) :=
  if (args.isEmpty = false ∨ kwargs.isEmpty = false) ∧ qs.canFilter = false then
    Except.error "Cannot filter a query once a slice has been taken."
  else
    let processed := rewriteKwargs V (baseFieldNames model) kwargs
    let model' : ModelMeta :=
      ⟨model.fields ++ (registrations V model kwargs).map
        (fun f => ⟨f, "AbstractIterableField"⟩)⟩
    let q : QNode P V := ⟨negate, args, processed⟩
    Except.ok (qs, ⟨qs.canFilter, qs.predicates ++ [q]⟩, model')

/-- `RawQuery` (source lines 24-33): a query carrying a driver-native
filter document verbatim. -/
structure RawQuery (F : Type) where
  raw_query : F
deriving DecidableEq, Repr

/-- `RawQueryMixin.get_raw_query_set` (source lines 38-39): wraps the raw
filter document in a `RawQuery`-backed queryset. -/
def getRawQuerySet (F : Type) (raw_query : F) : RawQuery F :=
  ⟨raw_query⟩

/-- The driver-visible trace of one `raw_update` call: which queryset was
built (a verbatim raw filter, or the result of standard ORM filtering),
whether it was marked `_for_write`, the driver update calls issued by
`SQLUpdateCompiler.execute_update` (update document and forwarded keyword
options), and the value returned to the caller. -/
structure RawUpdateTrace (F B U O A : Type) where
  queryset : Sum (RawQuery F) B
  forWrite : Bool
  driverUpdates : List (U × O)
  returned : Option A
deriving Repr

/-- `RawQueryMixin.raw_update` (source lines 48-64).  `ormFilter` is the
standard ORM filtering step `self.filter(spec_or_q)` applied when the
argument is a `Q` predicate rather than a dict; `ack` is the driver
acknowledgment that the single `execute_update` driver call would produce;
the Python function body discards it and falls off the end, returning
`None`. -/
def rawUpdate (F P B U O A : Type) (ormFilter : P → B) (ack : A)
    (spec_or_q : Sum F P) (update_dict : U) (opts : O) :
    RawUpdateTrace F B U O A :=
  let queryset : Sum (RawQuery F) B :=
    match spec_or_q with
    | Sum.inl spec => Sum.inl (getRawQuerySet F spec)
    | Sum.inr q => Sum.inr (ormFilter q)
  let acknowledgment := ack
  { queryset := queryset
    forWrite := true
    driverUpdates := [(update_dict, opts)]
    returned := (fun _ => none) acknowledgment }

/-- A driver entity: a BSON document, embedded as an association list from
string keys to values. -/
abbrev Entity (V : Type) := List (String × V)

/-- Python `entity[key]`: the value bound to `key`, `none` on `KeyError`. -/
def dictGet (V : Type) (e : Entity V) (key : String) : Option V :=
  (e.find? (fun p => p.1 == key)).map (·.2)

/-- `MapReduceResult` (source lines 69-81): one item of a Map/Reduce result
array, annotated with the model the query was performed on. -/
structure MapReduceResult (M V : Type) where
  model : M
  key : V
  value : V
deriving DecidableEq, Repr

/-- `MapReduceResult.from_entity` (source lines 83-85): build a result from
a driver entity, reading its `_id` and `value` keys; `none` embeds the
`KeyError` raised when either key is missing. -/
def MapReduceResult.from_entity (M V : Type) (model : M) (e : Entity V) :
    Option (MapReduceResult M V) :=
  match dictGet V e "_id", dictGet V e "value" with
  | some k, some v => some ⟨model, k, v⟩
  | _, _ => none

/-- The server-side result collection produced by a persisted Map/Reduce
job: its documents and whether it has been dropped. -/
structure ResultCollection (V : Type) where
  docs : List (Entity V)
  dropped : Bool
deriving Repr

/-- A Python generator with a `finally` suite: the items it yields in
order, and the cleanup it runs on the collection state when exhausted. -/
structure Gen (A S : Type) where
  items : List A
  onExhaust : S → S

/-- Fully consuming a generator: all its items, and the state after the
`finally` suite has run. -/
def consumeAll (A S : Type) (g : Gen A S) (s : S) : List A × S :=
  (g.items, g.onExhaust s)

/-- `MongoDBQuerySet._map_reduce_cpython` (source lines 159-165): a
generator yielding one `MapReduceResult` per entity of
`result_collection.find()`, whose `finally` suite drops the result
collection when `drop_collection` is true. -/
def mapReduceCpython (M V : Type) (model : M) (rc : ResultCollection V)
    (drop_collection : Bool) :
    Gen (Option (MapReduceResult M V)) (ResultCollection V) :=
  { items := rc.docs.map (MapReduceResult.from_entity M V model)
    onExhaust := fun s =>
      if drop_collection then { s with dropped := true } else s }

/-- `MongoDBQuerySet._map_reduce_pypy_drop_collection_hack` (source lines
167-172): eagerly materializes the result list and drops the collection
immediately (its `finally` suite runs unconditionally). -/
def mapReducePypyHack (M V : Type) (model : M) (rc : ResultCollection V) :
    List (Option (MapReduceResult M V)) × ResultCollection V :=
  (rc.docs.map (MapReduceResult.from_entity M V model),
   { rc with dropped := true })

/-- `MongoDBQuerySet.map_reduce` (source lines 129-157), observed after the
returned sequence has been fully consumed.  `drop_collection_arg` models
`kwargs.pop('drop_collection', False)`; `rc` is the result collection the
driver call `query.collection.map_reduce(...)` produced; `on_pypy` is
`ON_PYPY`.  (The `kwargs.setdefault('query', query.mongo_query)` plumbing
forwards driver options and is not modelled.)  Returns the consumed result
sequence and the final state of the result collection. -/
def mapReduceConsumed (M V : Type) (model : M) (rc : ResultCollection V)
    (drop_collection_arg : Option Bool) (on_pypy : Bool) :
    List (Option (MapReduceResult M V)) × ResultCollection V :=
  let drop_collection := drop_collection_arg.getD false
  if drop_collection ∧ on_pypy then
    mapReducePypyHack M V model rc
  else
    consumeAll (Option (MapReduceResult M V)) (ResultCollection V)
      (mapReduceCpython M V model rc drop_collection) rc

/-- `MongoDBQuerySet.inline_map_reduce` (source lines 174-185): runs the
Map/Reduce in memory.  `driver_results` is the entity list returned by
`query.collection.inline_map_reduce(*args, **kwargs)`; `collections` is
the (opaque) state of the server's persisted collections, which the call
neither extends nor drops.  Returns the eagerly built result list and the
unchanged collection state. -/
def inlineMapReduce (M V C : Type) (model : M)
    (driver_results : List (Entity V)) (collections : C) :
    List (Option (MapReduceResult M V)) × C :=
  (driver_results.map (MapReduceResult.from_entity M V model), collections)

/-- `pat` does not occur anywhere in `u ++ t` at a position that starts
inside `u`: no nonempty suffix `v` of `u` has `pat` as a prefix of
`v ++ t`. -/
def noTouch (pat u t : Str) : Prop :=
  ∀ v : Str, v <:+ u → v ≠ [] → ¬ pat <+: (v ++ t)

/-- A well-behaved path component of a filter key: nonempty, free of the
placeholder `#` and the literal dot, not containing the lookup separator,
and not ending in a single underscore (which would merge with an adjacent
separator). -/
def cleanSeg (s : Str) : Prop :=
  s ≠ [] ∧ '#' ∉ s ∧ '.' ∉ s ∧ ¬ (LOOKUP_SEP <:+: s) ∧ s.getLast? ≠ some '_'

instance (s : Str) : Decidable (cleanSeg s) := by
  unfold cleanSeg; infer_instance

/-- The segments of a dotted or separated path, joined by `sep`. -/
def joinSep (sep : Str) : List Str → Str
  | [] => []
  | [s] => s
  | s :: s2 :: rest => s ++ sep ++ joinSep sep (s2 :: rest)

/-! ### Lemmas about the string primitives -/

theorem replaceListAux_congr (pat repl : Str) :
    ∀ (f1 : Nat) (f2 : Nat) (s : Str), s.length ≤ f1 → s.length ≤ f2 →
      replaceListAux pat repl f1 s = replaceListAux pat repl f2 s := by
  intro f1
  induction f1 with
  | zero =>
    intro f2 s h1 _
    have hs : s = [] := List.eq_nil_of_length_eq_zero (Nat.le_zero.mp h1)
    subst hs
    cases f2 <;> rfl
  | succ g1 ih =>
    intro f2 s h1 h2
    cases s with
    | nil => cases f2 <;> rfl
    | cons c rest =>
      cases f2 with
      | zero => simp at h2
      | succ g2 =>
        simp only [List.length_cons, Nat.add_le_add_iff_right] at h1 h2
        simp only [replaceListAux]
        split
        · have hb1 : (rest.drop (pat.length - 1)).length ≤ g1 := by
            simp only [List.length_drop]; omega
          have hb2 : (rest.drop (pat.length - 1)).length ≤ g2 := by
            simp only [List.length_drop]; omega
          rw [ih g2 _ hb1 hb2]
        · rw [ih g2 rest h1 h2]

theorem replaceListAux_skip (pat repl : Str) :
    ∀ (u t : Str) (fuel : Nat), (u ++ t).length ≤ fuel → noTouch pat u t →
      replaceListAux pat repl fuel (u ++ t) = u ++ replaceList pat repl t := by
  intro u
  induction u with
  | nil =>
    intro t fuel h _
    simp only [List.nil_append]
    exact replaceListAux_congr pat repl fuel t.length t (by simpa using h)
      (Nat.le_refl _)
  | cons c u' ih =>
    intro t fuel h hnt
    cases fuel with
    | zero => simp at h
    | succ g =>
      have hg : ¬ (pat.isPrefixOf (c :: (u' ++ t)) = true) := by
        intro hp
        exact hnt (c :: u') (List.suffix_refl _) (by simp)
          (List.isPrefixOf_iff_prefix.mp hp)
      simp only [List.cons_append, replaceListAux, List.append_eq]
      rw [if_neg hg]
      have hlen : (u' ++ t).length ≤ g := by
        simp only [List.cons_append, List.length_cons] at h
        omega
      have hnt' : noTouch pat u' t := fun v hv hne =>
        hnt v (hv.trans (List.suffix_cons c u')) hne
      rw [ih t g hlen hnt']

theorem replaceList_skip (pat repl u t : Str) (h : noTouch pat u t) :
    replaceList pat repl (u ++ t) = u ++ replaceList pat repl t :=
  replaceListAux_skip pat repl u t (u ++ t).length (Nat.le_refl _) h

theorem replaceList_hit (pat repl t : Str) (hne : pat ≠ []) :
    replaceList pat repl (pat ++ t) = repl ++ replaceList pat repl t := by
  cases pat with
  | nil => cases hne rfl
  | cons p ps =>
    simp only [replaceList, List.cons_append, List.length_cons, replaceListAux,
      List.append_eq]
    have hpre : (p :: ps).isPrefixOf (p :: (ps ++ t)) = true := by
      rw [← List.cons_append]
      exact List.isPrefixOf_iff_prefix.mpr (List.prefix_append _ _)
    rw [if_pos hpre]
    simp only [List.length_cons, Nat.add_sub_cancel, List.drop_left]
    rw [replaceListAux_congr (p :: ps) repl (ps ++ t).length t.length t
      (by simp) (Nat.le_refl _)]

theorem replaceList_eq_self (pat repl u : Str) (h : noTouch pat u []) :
    replaceList pat repl u = u := by
  have h2 := replaceList_skip pat repl u [] h
  rw [List.append_nil] at h2
  rw [h2]
  show u ++ replaceListAux pat repl 0 [] = u
  simp [replaceListAux]

theorem noTouch_of_head_notMem (pc : Char) (pat' u t : Str) (h : pc ∉ u) :
    noTouch (pc :: pat') u t := by
  intro v hv hne hp
  cases v with
  | nil => exact hne rfl
  | cons a v' =>
    rw [List.cons_append, List.cons_prefix_cons] at hp
    exact h (hp.1 ▸ List.IsSuffix.mem (List.mem_cons_self a v') hv)

theorem noTouch_sep (u t : Str) (hinf : ¬ (LOOKUP_SEP <:+: u))
    (hlast : u.getLast? ≠ some '_') : noTouch LOOKUP_SEP u t := by
  intro v hv hne hp
  cases v with
  | nil => exact hne rfl
  | cons a v' =>
    rw [show LOOKUP_SEP = '_' :: ['_'] from rfl, List.cons_append,
      List.cons_prefix_cons] at hp
    obtain ⟨ha, hp'⟩ := hp
    cases v' with
    | nil =>
      obtain ⟨w, hw⟩ := hv
      rw [← ha] at hw
      exact hlast (hw ▸ List.getLast?_concat w)
    | cons b v'' =>
      rw [List.cons_append, List.cons_prefix_cons] at hp'
      obtain ⟨hb, _⟩ := hp'
      obtain ⟨w, hw⟩ := hv
      refine hinf ⟨w, v'', ?_⟩
      rw [← ha, ← hb] at hw
      rw [List.append_assoc]
      exact hw

theorem noTouch_sep_of_notMem (u t : Str) (h : '_' ∉ u) :
    noTouch LOOKUP_SEP u t :=
  noTouch_of_head_notMem '_' ['_'] u t h

theorem containsSub_iff (pat s : Str) : containsSub pat s = true ↔ pat <:+: s := by
  induction s with
  | nil =>
    simp only [containsSub, List.isEmpty_iff]
    constructor
    · intro h; exact h ▸ List.infix_refl []
    · intro h; exact List.eq_nil_of_infix_nil h
  | cons c rest ih =>
    simp only [containsSub, Bool.or_eq_true, ih, List.isPrefixOf_iff_prefix]
    exact (List.infix_cons_iff).symm

theorem firstSegment_boundary (sep t : Str) (hsep : sep ≠ []) :
    firstSegment sep (sep ++ t) = [] := by
  cases sep with
  | nil => cases hsep rfl
  | cons sc sep' =>
    have hpre : (sc :: sep').isPrefixOf (sc :: (sep' ++ t)) = true := by
      rw [← List.cons_append]
      exact List.isPrefixOf_iff_prefix.mpr (List.prefix_append _ _)
    simp only [List.cons_append, firstSegment]
    rw [if_pos ⟨hpre, hsep⟩]

theorem firstSegment_append (sep u t : Str) (hsep : sep ≠ [])
    (hnt : noTouch sep u (sep ++ t)) :
    firstSegment sep (u ++ (sep ++ t)) = u := by
  induction u with
  | nil =>
    rw [List.nil_append]
    exact firstSegment_boundary sep t hsep
  | cons c u' ih =>
    have hg : ¬ ((sep.isPrefixOf (c :: (u' ++ (sep ++ t))) = true) ∧ sep ≠ []) := by
      rintro ⟨hp, -⟩
      exact hnt (c :: u') (List.suffix_refl _) (by simp)
        (List.isPrefixOf_iff_prefix.mp hp)
    simp only [List.cons_append, firstSegment, List.append_eq]
    rw [if_neg hg]
    have hnt' : noTouch sep u' (sep ++ t) := fun v hv hne =>
      hnt v (hv.trans (List.suffix_cons c u')) hne
    rw [ih hnt']

theorem find?_eq_some_of_unique (α : Type) (p : α → Bool) (l : List α) (x : α)
    (hx : x ∈ l) (hpx : p x = true) (huniq : ∀ y ∈ l, p y = true → y = x) :
    l.find? p = some x := by
  induction l with
  | nil => cases hx
  | cons a l' ih =>
    by_cases ha : p a = true
    · rw [List.find?_cons_of_pos l' ha]
      rw [huniq a (List.mem_cons_self a l') ha]
    · rw [List.find?_cons_of_neg l' ha]
      have hx' : x ∈ l' := by
        rcases List.mem_cons.mp hx with h | h
        · exact absurd (h ▸ hpx) ha
        · exact h
      exact ih hx' (fun y hy => huniq y (List.mem_cons_of_mem a hy))

theorem suffix_of_suffix_length_le (l1 l2 l3 : Str) (h1 : l1 <:+ l3)
    (h2 : l2 <:+ l3) (hl : l1.length ≤ l2.length) : l1 <:+ l2 := by
  rw [← List.reverse_prefix]
  exact List.prefix_of_prefix_length_le (List.reverse_prefix.mpr h1)
    (List.reverse_prefix.mpr h2) (by simpa using hl)

theorem ops_clean : ∀ s ∈ ALL_OPERATORS, s ≠ [] ∧ '_' ∉ s ∧ '#' ∉ s ∧ '.' ∉ s := by
  decide

theorem ops_no_mutual_suffix :
    ∀ s1 ∈ ALL_OPERATORS, ∀ s2 ∈ ALL_OPERATORS, s1 <:+ s2 → s1 = s2 := by
  decide

theorem mem_of_suffix_sep_op (s op : Str) (hlen : op.length + 1 ≤ s.length)
    (hs : s <:+ LOOKUP_SEP ++ op) : '_' ∈ s := by
  obtain ⟨w, hw⟩ := hs
  have hwlen : w.length + s.length = op.length + 2 := by
    have := congrArg List.length hw
    simp [List.length_append, LOOKUP_SEP] at this
    omega
  cases w with
  | nil =>
    rw [List.nil_append] at hw
    rw [hw]
    simp [LOOKUP_SEP]
  | cons x w' =>
    have hw' : w' = [] := by
      have : w'.length = 0 := by simp at hwlen; omega
      exact List.eq_nil_of_length_eq_zero this
    subst hw'
    have hx : x :: s = '_' :: '_' :: op := hw
    have : s = '_' :: op := (List.cons.injEq _ _ _ _).mp hx |>.2
    rw [this]
    exact List.mem_cons_self _ _

theorem find?_ops (a op : Str) (hop : op ∈ ALL_OPERATORS) :
    ALL_OPERATORS.find? (fun s => s.isSuffixOf (a ++ LOOKUP_SEP ++ op))
      = some op := by
  have hok : LOOKUP_SEP ++ op <:+ a ++ LOOKUP_SEP ++ op :=
    ⟨a, (List.append_assoc a LOOKUP_SEP op).symm⟩
  apply find?_eq_some_of_unique Str _ ALL_OPERATORS op hop
  · exact List.isSuffixOf_iff_suffix.mpr
      ((List.suffix_append LOOKUP_SEP op).trans hok)
  · intro s hs hps
    have hsk : s <:+ a ++ LOOKUP_SEP ++ op := List.isSuffixOf_iff_suffix.mp hps
    by_cases hle : s.length ≤ op.length
    · -- a suffix no longer than `op` is a suffix of `op` itself
      have hsop : s <:+ op :=
        suffix_of_suffix_length_le s op _ hsk
          ((List.suffix_append LOOKUP_SEP op).trans hok) hle
      exact ops_no_mutual_suffix s hs op hop hsop
    · -- a longer suffix would have to contain an underscore
      exfalso
      have hunder : '_' ∉ s := (ops_clean s hs).2.1
      by_cases hle2 : s.length ≤ op.length + 2
      · have hssep : s <:+ LOOKUP_SEP ++ op := by
          apply suffix_of_suffix_length_le s (LOOKUP_SEP ++ op) _ hsk hok
          simpa [LOOKUP_SEP] using hle2
        exact hunder (mem_of_suffix_sep_op s op (by omega) hssep)
      · have hseps : LOOKUP_SEP ++ op <:+ s := by
          apply suffix_of_suffix_length_le (LOOKUP_SEP ++ op) s _ hok hsk
          simp [LOOKUP_SEP]; omega
        exact hunder (List.IsSuffix.mem (by simp [LOOKUP_SEP]) hseps)

theorem notMem_joinSep (c : Char) (sep : Str) (segs : List Str)
    (hsep : c ∉ sep) (h : ∀ s ∈ segs, c ∉ s) : c ∉ joinSep sep segs := by
  induction segs with
  | nil => simp [joinSep]
  | cons s rest ih =>
    cases rest with
    | nil => simpa [joinSep] using h s (by simp)
    | cons s2 rest' =>
      show c ∉ s ++ sep ++ joinSep sep (s2 :: rest')
      intro hc
      rcases List.mem_append.mp hc with hc1 | hc2
      · rcases List.mem_append.mp hc1 with hca | hcb
        · exact h s (by simp) hca
        · exact hsep hcb
      · exact ih (fun x hx => h x (List.mem_cons_of_mem s hx)) hc2

theorem replaceSep_joinSep (segs : List Str) (t : Str) (hne : segs ≠ [])
    (hclean : ∀ s ∈ segs, ¬ (LOOKUP_SEP <:+: s) ∧ s.getLast? ≠ some '_') :
    replaceList LOOKUP_SEP ['.'] (joinSep LOOKUP_SEP segs ++ t)
      = joinSep ['.'] segs ++ replaceList LOOKUP_SEP ['.'] t := by
  induction segs with
  | nil => cases hne rfl
  | cons s rest ih =>
    cases rest with
    | nil =>
      show replaceList LOOKUP_SEP ['.'] (s ++ t)
        = s ++ replaceList LOOKUP_SEP ['.'] t
      exact replaceList_skip _ _ s t
        (noTouch_sep s t (hclean s (by simp)).1 (hclean s (by simp)).2)
    | cons s2 rest' =>
      show replaceList LOOKUP_SEP ['.']
          ((s ++ LOOKUP_SEP ++ joinSep LOOKUP_SEP (s2 :: rest')) ++ t)
        = (s ++ ['.'] ++ joinSep ['.'] (s2 :: rest'))
            ++ replaceList LOOKUP_SEP ['.'] t
      have h1 : (s ++ LOOKUP_SEP ++ joinSep LOOKUP_SEP (s2 :: rest')) ++ t
          = s ++ (LOOKUP_SEP ++ (joinSep LOOKUP_SEP (s2 :: rest') ++ t)) := by
        simp [List.append_assoc]
      rw [h1]
      rw [replaceList_skip _ _ s _
        (noTouch_sep s _ (hclean s (by simp)).1 (hclean s (by simp)).2)]
      rw [replaceList_hit _ _ _ (by simp [LOOKUP_SEP])]
      rw [ih (by simp) (fun x hx => hclean x (List.mem_cons_of_mem s hx))]
      simp [List.append_assoc]

theorem opSwap_op (a op : Str) (hop : op ∈ ALL_OPERATORS) :
    opSwap (a ++ LOOKUP_SEP ++ op) = a ++ '#' :: op := by
  unfold opSwap
  rw [find?_ops a op hop]
  show subSuffix (LOOKUP_SEP ++ op) ('#' :: op) (a ++ LOOKUP_SEP ++ op)
    = a ++ '#' :: op
  unfold subSuffix
  have hsuf : (LOOKUP_SEP ++ op).isSuffixOf (a ++ LOOKUP_SEP ++ op) = true :=
    List.isSuffixOf_iff_suffix.mpr ⟨a, (List.append_assoc _ _ _).symm⟩
  rw [if_pos hsuf]
  have hlen : (a ++ LOOKUP_SEP ++ op).length - (LOOKUP_SEP ++ op).length
      = a.length := by
    simp [List.length_append, LOOKUP_SEP]
  rw [hlen, List.append_assoc, List.take_left]

theorem opSwap_noop (k : Str) (h : ∀ s ∈ ALL_OPERATORS, ¬ s <:+ k) :
    opSwap k = k := by
  unfold opSwap
  rw [List.find?_eq_none.mpr (fun s hs hsuf =>
    h s hs (List.isSuffixOf_iff_suffix.mp hsuf))]

/-- Core of C1: a key `field__seg1__...__segn__op` whose first segment is a
document-like field and whose tail is a recognized operator is rewritten to
`field.seg1.....segn__op`. -/
theorem rewriteKey_op (baseNames : List Str) (field : Str) (segs : List Str)
    (op : Str) (hf : field ∈ baseNames) (hfc : cleanSeg field)
    (hsegs : ∀ s ∈ segs, cleanSeg s) (hne : segs ≠ [])
    (hop : op ∈ ALL_OPERATORS) :
    rewriteKey baseNames
        (field ++ LOOKUP_SEP ++ joinSep LOOKUP_SEP segs ++ LOOKUP_SEP ++ op)
      = field ++ ['.'] ++ joinSep ['.'] segs ++ LOOKUP_SEP ++ op := by
  obtain ⟨hfne, hfhash, hfdot, hfinf, hflast⟩ := hfc
  have hopclean := ops_clean op hop
  have hcont : containsSub LOOKUP_SEP
      (field ++ LOOKUP_SEP ++ joinSep LOOKUP_SEP segs ++ LOOKUP_SEP ++ op)
      = true := by
    apply (containsSub_iff _ _).mpr
    exact ⟨field, joinSep LOOKUP_SEP segs ++ LOOKUP_SEP ++ op, by
      simp [List.append_assoc]⟩
  have hfs : firstSegment LOOKUP_SEP
      (field ++ LOOKUP_SEP ++ joinSep LOOKUP_SEP segs ++ LOOKUP_SEP ++ op)
      = field := by
    have hshape : field ++ LOOKUP_SEP ++ joinSep LOOKUP_SEP segs
        ++ LOOKUP_SEP ++ op
        = field ++ (LOOKUP_SEP
            ++ (joinSep LOOKUP_SEP segs ++ (LOOKUP_SEP ++ op))) := by
      simp [List.append_assoc]
    rw [hshape]
    exact firstSegment_append LOOKUP_SEP field _ (by simp [LOOKUP_SEP])
      (noTouch_sep field _ hfinf hflast)
  unfold rewriteKey
  rw [if_pos ⟨hcont, by rw [hfs]; exact hf⟩]
  rw [opSwap_op (field ++ LOOKUP_SEP ++ joinSep LOOKUP_SEP segs) op hop]
  have hshape2 : (field ++ LOOKUP_SEP ++ joinSep LOOKUP_SEP segs) ++ '#' :: op
      = field ++ (LOOKUP_SEP ++ (joinSep LOOKUP_SEP segs ++ '#' :: op)) := by
    simp [List.append_assoc]
  rw [hshape2]
  rw [replaceList_skip _ _ field _ (noTouch_sep field _ hfinf hflast)]
  rw [replaceList_hit _ _ _ (by simp [LOOKUP_SEP])]
  rw [replaceSep_joinSep segs ('#' :: op) hne
    (fun s hs => ⟨(hsegs s hs).2.2.2.1, (hsegs s hs).2.2.2.2⟩)]
  rw [replaceList_eq_self _ _ ('#' :: op)
    (noTouch_sep_of_notMem _ _ (by
      simp only [List.mem_cons, not_or]
      exact ⟨by simp, hopclean.2.1⟩))]
  have hshape3 : field ++ (['.']
      ++ (joinSep ['.'] segs ++ '#' :: op))
      = (field ++ (['.'] ++ joinSep ['.'] segs)) ++ ('#' :: op) := by
    simp [List.append_assoc]
  rw [hshape3]
  have hhash : '#' ∉ field ++ (['.'] ++ joinSep ['.'] segs) := by
    intro hmem
    rcases List.mem_append.mp hmem with h1 | h2
    · exact hfhash h1
    · rcases List.mem_append.mp h2 with h3 | h4
      · simp at h3
      · exact notMem_joinSep '#' ['.'] segs (by simp)
          (fun s hs => (hsegs s hs).2.1) h4
  rw [replaceList_skip _ _ _ _ (noTouch_of_head_notMem '#' [] _ _ hhash)]
  rw [show ('#' :: op : Str) = ['#'] ++ op from rfl]
  rw [replaceList_hit _ _ _ (by simp)]
  rw [replaceList_eq_self _ _ op
    (noTouch_of_head_notMem '#' [] op [] hopclean.2.2.1)]
  simp [List.append_assoc]

/-- Core of C2: a key `field__seg1__...__segn` whose first segment is a
document-like field and which does not end in any recognized operator has
every separator replaced by a literal dot. -/
theorem rewriteKey_noOper (baseNames : List Str) (field : Str)
    (segs : List Str) (hf : field ∈ baseNames) (hfc : cleanSeg field)
    (hsegs : ∀ s ∈ segs, cleanSeg s) (hne : segs ≠ [])
    (hnosuf : ∀ s ∈ ALL_OPERATORS,
      ¬ s <:+ (field ++ LOOKUP_SEP ++ joinSep LOOKUP_SEP segs)) :
    rewriteKey baseNames (field ++ LOOKUP_SEP ++ joinSep LOOKUP_SEP segs)
      = field ++ ['.'] ++ joinSep ['.'] segs := by
  obtain ⟨hfne, hfhash, hfdot, hfinf, hflast⟩ := hfc
  have hcont : containsSub LOOKUP_SEP
      (field ++ LOOKUP_SEP ++ joinSep LOOKUP_SEP segs) = true := by
    apply (containsSub_iff _ _).mpr
    exact ⟨field, joinSep LOOKUP_SEP segs, by simp [List.append_assoc]⟩
  have hfs : firstSegment LOOKUP_SEP
      (field ++ LOOKUP_SEP ++ joinSep LOOKUP_SEP segs) = field := by
    rw [List.append_assoc]
    exact firstSegment_append LOOKUP_SEP field _ (by simp [LOOKUP_SEP])
      (noTouch_sep field _ hfinf hflast)
  unfold rewriteKey
  rw [if_pos ⟨hcont, by rw [hfs]; exact hf⟩]
  rw [opSwap_noop _ hnosuf]
  have hshape : field ++ LOOKUP_SEP ++ joinSep LOOKUP_SEP segs
      = field ++ (LOOKUP_SEP ++ (joinSep LOOKUP_SEP segs ++ [])) := by
    simp [List.append_assoc]
  rw [hshape]
  rw [replaceList_skip _ _ field _ (noTouch_sep field _ hfinf hflast)]
  rw [replaceList_hit _ _ _ (by simp [LOOKUP_SEP])]
  rw [replaceSep_joinSep segs [] hne
    (fun s hs => ⟨(hsegs s hs).2.2.2.1, (hsegs s hs).2.2.2.2⟩)]
  have hrepl_nil : replaceList LOOKUP_SEP ['.'] ([] : Str) = [] := rfl
  rw [hrepl_nil, List.append_nil]
  have hhash : '#' ∉ field ++ (['.'] ++ joinSep ['.'] segs) := by
    intro hmem
    rcases List.mem_append.mp hmem with h1 | h2
    · exact hfhash h1
    · rcases List.mem_append.mp h2 with h3 | h4
      · simp at h3
      · exact notMem_joinSep '#' ['.'] segs (by simp)
          (fun s hs => (hsegs s hs).2.1) h4
  rw [replaceList_eq_self _ _ _
    (noTouch_of_head_notMem '#' [] _ _ hhash)]
  simp [List.append_assoc]

theorem mem_baseFieldNames (m : ModelMeta) (f : Str) (ity : String)
    (h : FieldDecl.mk f ity ∈ m.fields) (hdot : '.' ∉ f)
    (hty : ity ∈ MONGO_DOT_FIELDS) : f ∈ baseFieldNames m := by
  unfold baseFieldNames
  refine List.mem_map.mpr ⟨⟨f, ity⟩, List.mem_filter.mpr ⟨h, ?_⟩, rfl⟩
  simp [hdot, hty]

/-! ### Claims -/

/-- C1: for every filter keyword `field__path__op` where `field` is a
declared document-like field (DictField, ListField, SetField or
EmbeddedModelField) of the model and `op` is a recognized operator suffix,
`_filter_or_exclude` rewrites the key to the driver-native `field.path`
with the operator suffix re-attached via the lookup separator, and the
value bound to the key is unchanged. -/
theorem dotted_filter_key_rewritten_with_operator (V : Type)
    (model : ModelMeta) (field : Str) (ity : String) (segs : List Str)
    (op : Str) (v : V)
    (hdecl : FieldDecl.mk field ity ∈ model.fields)
    (hty : ity ∈ MONGO_DOT_FIELDS) (hfc : cleanSeg field)
    (hsegs : ∀ s ∈ segs, cleanSeg s) (hne : segs ≠ [])
    (hop : op ∈ ALL_OPERATORS) :
    rewriteKwargs V (baseFieldNames model)
        [(field ++ LOOKUP_SEP ++ joinSep LOOKUP_SEP segs ++ LOOKUP_SEP ++ op,
          v)]
      = [(field ++ ['.'] ++ joinSep ['.'] segs ++ LOOKUP_SEP ++ op, v)] := by
  unfold rewriteKwargs
  rw [List.map_cons, List.map_nil]
  rw [rewriteKey_op (baseFieldNames model) field segs op
    (mem_baseFieldNames model field ity hdecl hfc.2.2.1 hty) hfc hsegs hne hop]

/-- Witness for C1: the spec scenario `items__sku__in` on a model whose
`items` field is a DictField becomes `items.sku__in`. -/
theorem dotted_filter_key_rewritten_with_operator_witness :
    rewriteKwargs Unit (baseFieldNames ⟨[⟨"items".toList, "DictField"⟩]⟩)
        [("items".toList ++ LOOKUP_SEP ++ joinSep LOOKUP_SEP ["sku".toList]
          ++ LOOKUP_SEP ++ "in".toList, ())]
      = [("items".toList ++ ['.'] ++ joinSep ['.'] ["sku".toList]
          ++ LOOKUP_SEP ++ "in".toList, ())] :=
  dotted_filter_key_rewritten_with_operator Unit
    ⟨[⟨"items".toList, "DictField"⟩]⟩ "items".toList "DictField"
    ["sku".toList] "in".toList () (by decide) (by decide) (by decide)
    (by decide) (by decide) (by decide)

/-- C2: for every filter keyword whose first segment is a declared
document-like field and whose tail does not end with any recognized
operator suffix, `_filter_or_exclude` replaces every lookup separator in
the key with a literal dot, so the final segment becomes a literal path
component, and the value is unchanged. -/
theorem dotted_filter_key_rewritten_without_operator (V : Type)
    (model : ModelMeta) (field : Str) (ity : String) (segs : List Str)
    (v : V)
    (hdecl : FieldDecl.mk field ity ∈ model.fields)
    (hty : ity ∈ MONGO_DOT_FIELDS) (hfc : cleanSeg field)
    (hsegs : ∀ s ∈ segs, cleanSeg s) (hne : segs ≠ [])
    (hnosuf : ∀ s ∈ ALL_OPERATORS,
      ¬ s <:+ (field ++ LOOKUP_SEP ++ joinSep LOOKUP_SEP segs)) :
    rewriteKwargs V (baseFieldNames model)
        [(field ++ LOOKUP_SEP ++ joinSep LOOKUP_SEP segs, v)]
      = [(field ++ ['.'] ++ joinSep ['.'] segs, v)] := by
  unfold rewriteKwargs
  rw [List.map_cons, List.map_nil]
  rw [rewriteKey_noOper (baseFieldNames model) field segs
    (mem_baseFieldNames model field ity hdecl hfc.2.2.1 hty) hfc hsegs hne
    hnosuf]

/-- Witness for C2: `items__sku` (no operator suffix) becomes the literal
path `items.sku`. -/
theorem dotted_filter_key_rewritten_without_operator_witness :
    rewriteKwargs Unit (baseFieldNames ⟨[⟨"items".toList, "DictField"⟩]⟩)
        [("items".toList ++ LOOKUP_SEP ++ joinSep LOOKUP_SEP ["sku".toList],
          ())]
      = [("items".toList ++ ['.'] ++ joinSep ['.'] ["sku".toList], ())] :=
  dotted_filter_key_rewritten_without_operator Unit
    ⟨[⟨"items".toList, "DictField"⟩]⟩ "items".toList "DictField"
    ["sku".toList] () (by decide) (by decide) (by decide) (by decide)
    (by decide) (by decide)

/-- C3 counterexample: the claim says every call to `_filter_or_exclude`
on a sliced queryset (`can_filter()` false) fails regardless of the filter
content passed; but a call passing no positional and no keyword arguments
skips the assertion (`if args or kwargs`) and succeeds. -/
theorem slice_assert_counterexample :
    filterOrExclude Unit Unit false ⟨false, []⟩ ⟨[]⟩ [] []
      = Except.ok (⟨false, []⟩, ⟨false, [⟨false, [], []⟩]⟩, ⟨[]⟩) := by
  rfl

/-- C3 (amended): on a queryset on which a result-limiting slice has been
taken (`query.can_filter()` false), every call to `_filter_or_exclude`
that passes at least one positional or keyword argument fails with the
assertion fault, regardless of the filter content. -/
theorem slice_assert_on_nonempty_filter (P V : Type) (negate : Bool)
    (qs : QuerySetState P V) (model : ModelMeta) (args : List P)
    (kwargs : List (Str × V)) (hslice : qs.canFilter = false)
    (hcontent : args ≠ [] ∨ kwargs ≠ []) :
    filterOrExclude P V negate qs model args kwargs
      = Except.error "Cannot filter a query once a slice has been taken." := by
  unfold filterOrExclude
  rw [if_pos]
  refine ⟨?_, hslice⟩
  rcases hcontent with h | h
  · exact Or.inl (by simpa using h)
  · exact Or.inr (by simpa using h)

/-- Witness for the amended C3: a sliced queryset rejects a one-kwarg
filter call. -/
theorem slice_assert_on_nonempty_filter_witness :
    filterOrExclude Unit Unit false ⟨false, []⟩ ⟨[]⟩ []
        [("name".toList, ())]
      = Except.error "Cannot filter a query once a slice has been taken." :=
  slice_assert_on_nonempty_filter Unit Unit false ⟨false, []⟩ ⟨[]⟩ []
    [("name".toList, ())] rfl (Or.inr (by decide))

/-- C4: after the sequence returned by `map_reduce` has been fully
consumed, the result collection has been dropped when
`drop_collection=True` was passed; with `drop_collection=False` or the
argument omitted (the default), the collection is never dropped and is
left exactly as the driver produced it; and the consumed results are one
`MapReduceResult` per result document.  Holds on both the CPython
generator path and the PyPy eager path. -/
theorem map_reduce_drop_collection_semantics (M V : Type) (model : M)
    (docs : List (Entity V)) (on_pypy : Bool) :
    (mapReduceConsumed M V model ⟨docs, false⟩ (some true) on_pypy).2.dropped
        = true
    ∧ (mapReduceConsumed M V model ⟨docs, false⟩ (some true) on_pypy).1
        = docs.map (MapReduceResult.from_entity M V model)
    ∧ (mapReduceConsumed M V model ⟨docs, false⟩ (some false) on_pypy).2
        = ⟨docs, false⟩
    ∧ (mapReduceConsumed M V model ⟨docs, false⟩ none on_pypy).2
        = ⟨docs, false⟩ := by
  cases on_pypy <;>
    simp [mapReduceConsumed, mapReducePypyHack, mapReduceCpython, consumeAll]

/-- C5: `raw_update(spec_or_q, update_dict, **kwargs)` builds a raw
queryset holding the filter dict verbatim when given a dict, applies
standard ORM filtering when given a `Q` object, marks the queryset
write-bound, and issues exactly one driver update call carrying
`update_dict` with the keyword options forwarded. -/
theorem raw_update_single_driver_call (F P B U O A : Type)
    (ormFilter : P → B) (ack : A) (d : F) (q : P) (u : U) (o : O) :
    (rawUpdate F P B U O A ormFilter ack (Sum.inl d) u o).queryset
        = Sum.inl ⟨d⟩
    ∧ (rawUpdate F P B U O A ormFilter ack (Sum.inl d) u o).forWrite = true
    ∧ (rawUpdate F P B U O A ormFilter ack (Sum.inl d) u o).driverUpdates
        = [(u, o)]
    ∧ (rawUpdate F P B U O A ormFilter ack (Sum.inr q) u o).queryset
        = Sum.inr (ormFilter q)
    ∧ (rawUpdate F P B U O A ormFilter ack (Sum.inr q) u o).forWrite = true
    ∧ (rawUpdate F P B U O A ormFilter ack (Sum.inr q) u o).driverUpdates
        = [(u, o)] :=
  ⟨rfl, rfl, rfl, rfl, rfl, rfl⟩

/-- C10: `raw_update` always returns `None`: the driver acknowledgment
produced by `execute_update` is discarded and never surfaced. -/
theorem raw_update_returns_none (F P B U O A : Type) (ormFilter : P → B)
    (ack : A) (spec_or_q : Sum F P) (u : U) (o : O) :
    (rawUpdate F P B U O A ormFilter ack spec_or_q u o).returned = none := by
  cases spec_or_q <;> rfl

/-- C7: `inline_map_reduce` returns an eagerly materialized list with one
`MapReduceResult` per driver entity, in exactly the driver's reported
order, and leaves the server's persisted collections untouched (none is
created, none is dropped). -/
theorem inline_map_reduce_order_and_no_collection (M V C : Type) (model : M)
    (pairs : List (V × V)) (collections : C) :
    inlineMapReduce M V C model
        (pairs.map (fun p => [("_id", p.1), ("value", p.2)])) collections
      = (pairs.map (fun p => some ⟨model, p.1, p.2⟩), collections) := by
  unfold inlineMapReduce
  rw [List.map_map]
  congr 1

/-- C8: `MapReduceResult.from_entity` maps a driver entity
`{'_id': k, 'value': v}` to a result whose key is `k`, whose value is `v`
and whose model is the originating model class. -/
theorem from_entity_projects_id_and_value (M V : Type) (model : M)
    (k v : V) :
    MapReduceResult.from_entity M V model [("_id", k), ("value", v)]
      = some ⟨model, k, v⟩ := by
  rfl

/-- C9: every successful `_filter_or_exclude` call leaves the receiver's
query structure unchanged and returns a distinct clone whose query carries
the added (negation-tagged, rewritten) predicate. -/
theorem filter_returns_fresh_clone (P V : Type) (negate : Bool)
    (qs : QuerySetState P V) (model : ModelMeta) (args : List P)
    (kwargs : List (Str × V)) (selfAfter clone : QuerySetState P V)
    (model' : ModelMeta)
    (h : filterOrExclude P V negate qs model args kwargs
      = Except.ok (selfAfter, clone, model')) :
    selfAfter = qs
    ∧ clone.predicates
        = qs.predicates
          ++ [⟨negate, args, rewriteKwargs V (baseFieldNames model) kwargs⟩]
    ∧ clone ≠ qs := by
  unfold filterOrExclude at h
  split at h
  · cases h
  · simp only [Except.ok.injEq, Prod.mk.injEq] at h
    obtain ⟨h1, h2, h3⟩ := h
    refine ⟨h1.symm, by rw [← h2], ?_⟩
    intro he
    have hp := congrArg QuerySetState.predicates (h2.trans he)
    simp only at hp
    have := congrArg List.length hp
    simp at this

/-- Witness for C9: an empty filter on a fresh queryset yields a clone
with one added predicate and an untouched receiver. -/
theorem filter_returns_fresh_clone_witness :
    (⟨true, []⟩ : QuerySetState Unit Unit) = ⟨true, []⟩
    ∧ (⟨true, [⟨false, [], []⟩]⟩ : QuerySetState Unit Unit).predicates
        = (⟨true, []⟩ : QuerySetState Unit Unit).predicates
          ++ [⟨false, [], rewriteKwargs Unit (baseFieldNames ⟨[]⟩) []⟩]
    ∧ (⟨true, [⟨false, [], []⟩]⟩ : QuerySetState Unit Unit) ≠ ⟨true, []⟩ :=
  filter_returns_fresh_clone Unit Unit false ⟨true, []⟩ ⟨[]⟩ [] []
    ⟨true, []⟩ ⟨true, [⟨false, [], []⟩]⟩ ⟨[]⟩ rfl

/-- C6 counterexample: the claim restricts dynamic registration to
keywords whose own first segment contains a literal dot; but the source
evaluates the registration condition on the key after rewriting, so the
keyword `items__sku__in` (first segment `items`, no dot) also triggers
registration of `items.sku` when `items` is a DictField. -/
theorem registration_triggered_without_dotted_first_segment :
    registrations Unit ⟨[⟨"items".toList, "DictField"⟩]⟩
        [("items__sku__in".toList, ())]
      = ["items.sku".toList]
    ∧ '.' ∉ firstSegment LOOKUP_SEP "items__sku__in".toList := by
  exact ⟨by decide, by decide⟩

/-- C6 (amended): a name `n` is dynamically registered exactly when some
filter keyword's key, after rewriting, has a first segment equal to `n`
that contains a literal dot and is not among the model's known field
names. -/
theorem registration_iff_rewritten_first_segment_dotted (V : Type)
    (model : ModelMeta) (kwargs : List (Str × V)) (n : Str) :
    n ∈ registrations V model kwargs
      ↔ ∃ kv ∈ kwargs,
          firstSegment LOOKUP_SEP (rewriteKey (baseFieldNames model) kv.1) = n
          ∧ '.' ∈ n ∧ ¬ n ∈ allFieldNames model := by
  simp only [registrations, List.mem_filterMap]
  constructor
  · rintro ⟨kv, hkv, hval⟩
    split_ifs at hval with hc
    obtain ⟨hdot, hmem⟩ := hc
    injection hval with hval
    exact ⟨kv, hkv, hval, hval ▸ hdot, hval ▸ hmem⟩
  · rintro ⟨kv, hkv, hfs, hdot, hmem⟩
    refine ⟨kv, hkv, ?_⟩
    rw [hfs, if_pos ⟨hdot, hmem⟩]

/-- Witness for the amended C6: on the counterexample input, `items.sku`
is registered, and it is the rewritten key's dotted first segment. -/
theorem registration_iff_rewritten_first_segment_dotted_witness :
    "items.sku".toList ∈ registrations Unit
        ⟨[⟨"items".toList, "DictField"⟩]⟩ [("items__sku__in".toList, ())]
      ↔ ∃ kv ∈ [("items__sku__in".toList, ())],
          firstSegment LOOKUP_SEP
              (rewriteKey
                (baseFieldNames ⟨[⟨"items".toList, "DictField"⟩]⟩) kv.1)
            = "items.sku".toList
          ∧ '.' ∈ "items.sku".toList
          ∧ ¬ "items.sku".toList
              ∈ allFieldNames ⟨[⟨"items".toList, "DictField"⟩]⟩ :=
  registration_iff_rewritten_first_segment_dotted Unit
    ⟨[⟨"items".toList, "DictField"⟩]⟩ [("items__sku__in".toList, ())]
    "items.sku".toList

end MongoContrib
